import Mathlib

/-!
Verification of the dmlc RecordIO framing format
(`src/include/dmlc/recordio.h`).

The header-packing helpers (`kMagic`, `EncodeLRec`, `DecodeFlag`,
`DecodeLength`) and the two constructors are embedded directly from the
header file.  The bodies of `RecordIOWriter::WriteRecord` and
`RecordIOReader::ReadRecord` are declared in the header but implemented in a
translation unit that is not part of the available sources, so the writer's
split-and-frame algorithm and the reader's scan-and-reassemble algorithm are
modelled from the specification (sections 4.1, 4.2 and 6 of the design
document).  Machine integers (`unsigned`, 32-bit) are modelled as `Nat`
with explicit truncation `% 2 ^ 32`; byte buffers and streams are `List Nat`.
-/

namespace dmlc

/-- Writer state: the C++ class `RecordIOWriter` holds a stream pointer and
the diagnostic counter `except_counter_`.  The stream is modelled separately
(as the list of bytes written), so the state kept here is the counter. -/
structure RecordIOWriter where
  except_counter_ : Nat
deriving DecidableEq

/-- Reader state: the C++ class `RecordIOReader` holds a stream pointer and
the latch `end_of_stream_`. -/
structure RecordIOReader where
  end_of_stream_ : Bool
deriving DecidableEq

namespace RecordIOWriter

/-- Magic number of recordio: `static const unsigned kMagic = 0x3ed7230a;`
(recordio.h line 39). -/
def kMagic : Nat := 0x3ed7230a

/-- Embeds `EncodeLRec(unsigned cflag, unsigned length)`, recordio.h lines
45-47: `return (cflag << 30U) | length;` on 32-bit unsigned arithmetic.
Arguments are `unsigned`, hence truncated to 32 bits, and the shift result
is again truncated to 32 bits. -/
def EncodeLRec (cflag length : Nat) : Nat :=
  (((cflag % 2 ^ 32) <<< 30) % 2 ^ 32) ||| (length % 2 ^ 32)

/-- Embeds `DecodeFlag(unsigned rec)`, recordio.h lines 53-55:
`return (rec >> 30U) & 3U;`. -/
def DecodeFlag (rec : Nat) : Nat :=
  ((rec % 2 ^ 32) >>> 30) &&& 3

/-- Embeds `DecodeLength(unsigned rec)`, recordio.h lines 61-63:
`return rec & ((1U << 30U) - 1U);`. -/
def DecodeLength (rec : Nat) : Nat :=
  (rec % 2 ^ 32) &&& ((1 <<< 30) - 1)

/-- Embeds the constructor `RecordIOWriter(Stream *stream)`, recordio.h
lines 68-71: it initialises `except_counter_(0)` and performs
`CHECK(sizeof(unsigned) == 4)`.  The platform's integer width is a
parameter; a failed `CHECK` (an abort) is modelled as `none`. -/
def create (sizeofUnsigned : Nat) : Option RecordIOWriter :=
  if sizeofUnsigned = 4 then some ⟨0⟩ else none

/-- Embeds the accessor `unsigned except_counter(void) const`, recordio.h
lines 89-91: it returns `except_counter_` and, being `const`, leaves the
writer unchanged; the call is modelled as returning the value paired with
the (unchanged) post-call state. -/
def except_counter (w : RecordIOWriter) : Nat × RecordIOWriter :=
  (w.except_counter_, w)

end RecordIOWriter

namespace RecordIOReader

/-- Embeds the constructor `RecordIOReader(Stream *stream)`, recordio.h
lines 109-112: it initialises `end_of_stream_(false)` and performs
`CHECK(sizeof(unsigned) == 4)`; a failed `CHECK` is modelled as `none`. -/
def create (sizeofUnsigned : Nat) : Option RecordIOReader :=
  if sizeofUnsigned = 4 then some ⟨false⟩ else none

end RecordIOReader

/-- Modelled from the spec: the wire format stores 4-byte words "in the
writer's native in-memory representation" (spec section 6); the reference
platform is little-endian, so a 32-bit word becomes four bytes, least
significant first. -/
def encodeLE32 (n : Nat) : List Nat :=
  [n % 256, n / 256 % 256, n / 65536 % 256, n / 16777216 % 256]

/-- Modelled from the spec: inverse of `encodeLE32`, used by the reader to
rebuild a 32-bit word from four stream bytes. -/
def decodeLE32 (b0 b1 b2 b3 : Nat) : Nat :=
  b0 + 256 * b1 + 65536 * b2 + 16777216 * b3

/-- The magic constant as the four bytes the writer puts on the stream. -/
def magicBytes : List Nat := encodeLE32 RecordIOWriter.kMagic

/-- Modelled from the spec (section 4.1 step 4): number of zero pad bytes
appended after a chunk payload of `n` bytes, `(4 - n mod 4) mod 4`. -/
def padLen (n : Nat) : Nat := (4 - n % 4) % 4

/-- Helper for `splitSegments`: prepend a byte to the first segment of a
non-empty segment list. -/
def consHead (x : Nat) : List (List Nat) → List (List Nat)
  | [] => [[x]]
  | s :: ss => (x :: s) :: ss

/-- Modelled from the spec (section 4.1 step 1): partition the payload
around every occurrence of the 4-byte magic sequence, scanning left to
right, so that no returned segment contains the magic sequence and the
payload is the segments interleaved with one magic occurrence between each
adjacent pair. -/
def splitSegments : List Nat → List (List Nat)
  | a :: b :: c :: d :: rest =>
    if [a, b, c, d] = magicBytes then [] :: splitSegments rest
    else consHead a (splitSegments (b :: c :: d :: rest))
  | other => [other]

/-- Segments interleaved with the magic sequence: the inverse of
`splitSegments`, describing the payload a segment list came from. -/
def joinMagic : List (List Nat) → List Nat
  | [] => []
  | [s] => s
  | s :: ss => s ++ magicBytes ++ joinMagic ss

/-- Modelled from the spec (section 4.1 step 4, section 6): one framed
chunk on the wire, `magic(4B) | header(4B) | payload | pad`. -/
def chunkBytes (cflag : Nat) (seg : List Nat) : List Nat :=
  magicBytes ++ encodeLE32 (RecordIOWriter.EncodeLRec cflag seg.length) ++
    seg ++ List.replicate (padLen seg.length) 0

/-- Modelled from the spec (section 4.1 step 3): frame the second and later
segments of a split record; interior segments get `cflag = 2` (MIDDLE), the
last gets `cflag = 3` (END). -/
def writeTail : List (List Nat) → List Nat
  | [] => []
  | [s] => chunkBytes 3 s
  | s :: ss => chunkBytes 2 s ++ writeTail ss

/-- Modelled from the spec (section 4.1 steps 2-3): frame a whole segment
list; a single segment becomes one COMPLETE chunk (`cflag = 0`), otherwise
the first segment is a START chunk (`cflag = 1`) followed by `writeTail`. -/
def writeChunks : List (List Nat) → List Nat
  | [] => []
  | [s] => chunkBytes 0 s
  | s :: ss => chunkBytes 1 s ++ writeTail ss

/-- Boolean check that every segment of the split of `b` is shorter than
`2 ^ 30`, i.e. that every length ever handed to `EncodeLRec` fits in the
30-bit length field. -/
def allSegsShort (b : List Nat) : Bool :=
  (splitSegments b).all fun seg => seg.length < 2 ^ 30

/-- Modelled from the spec: `RecordIOWriter::WriteRecord` (declared at
recordio.h line 77, body not among the available sources).  Spec section
4.1 and section 7 (PreconditionViolation): a payload of length `≥ 2^30` is
rejected at call time (`none`); otherwise the payload is split around magic
occurrences and framed as chunks, and the produced stream bytes are
returned. -/
def WriteRecord (b : List Nat) : Option (List Nat) :=
  if b.length < 2 ^ 30 then some (writeChunks (splitSegments b)) else none

/-- Result of one `ReadRecord` call: clean end of stream, a record together
with the not-yet-consumed rest of the stream, or a hard failure (corrupt
stream). -/
inductive ReadResult where
  | endOfStream : ReadResult
  | found : List Nat → List Nat → ReadResult
  | corrupt : ReadResult
deriving DecidableEq

/-- Modelled from the spec: the chunk-reading loop of
`RecordIOReader::ReadRecord` (declared at recordio.h line 118, body not
among the available sources), spec section 4.2.  `first` is true until a
chunk has been consumed for this call: an empty stream then is clean end of
stream, afterwards it is a hard failure.  A truncated magic/header read, a
magic mismatch, or a truncated payload/pad read is `corrupt`.  A chunk with
`cflag` START or MIDDLE was produced by splitting the payload at a magic
occurrence, so the reader reinstates the magic bytes after that chunk's
payload and continues; COMPLETE or END finishes the record.  `fuel` bounds
the number of loop iterations (each iteration consumes at least 8 stream
bytes, so any fuel of at least the stream length suffices). -/
def readChunks : Nat → Bool → List Nat → List Nat → ReadResult
  | 0, _, _, _ => .corrupt
  | _ + 1, first, _, [] => if first then .endOfStream else .corrupt
  | fuel + 1, _, acc, m0 :: m1 :: m2 :: m3 :: h0 :: h1 :: h2 :: h3 :: rest =>
    if [m0, m1, m2, m3] = magicBytes then
      let hdr := decodeLE32 h0 h1 h2 h3
      let c := RecordIOWriter.DecodeFlag hdr
      let l := RecordIOWriter.DecodeLength hdr
      if l + padLen l ≤ rest.length then
        if c = 0 ∨ c = 3 then .found (acc ++ rest.take l) (rest.drop (l + padLen l))
        else readChunks fuel false (acc ++ rest.take l ++ magicBytes) (rest.drop (l + padLen l))
      else .corrupt
    else .corrupt
  | _ + 1, _, _, _ => .corrupt

/-- Modelled from the spec: `RecordIOReader::ReadRecord` on a stream given
as the list of its remaining bytes. -/
def ReadRecord (s : List Nat) : ReadResult :=
  readChunks (s.length + 1) true [] s

/-! ### Theorems -/

/-- The magic byte sequence, evaluated. -/
theorem magicBytes_eq : magicBytes = [0x0a, 0x23, 0xd7, 0x3e] := by decide

/-- Under the documented preconditions the packed header is plain
arithmetic: flag in the top two bits, length below. -/
theorem EncodeLRec_eq (c l : Nat) (hc : c < 4) (hl : l < 2 ^ 30) :
    RecordIOWriter.EncodeLRec c l = 2 ^ 30 * c + l := by
  unfold RecordIOWriter.EncodeLRec
  rw [Nat.mod_eq_of_lt (show c < 2 ^ 32 by omega),
    Nat.mod_eq_of_lt (show l < 2 ^ 32 by omega), Nat.shiftLeft_eq,
    Nat.mod_eq_of_lt (show c * 2 ^ 30 < 2 ^ 32 by omega),
    Nat.mul_comm c (2 ^ 30)]
  exact (Nat.mul_add_lt_is_or hl c).symm

/-- A packed header fits in 32 bits. -/
theorem EncodeLRec_lt (c l : Nat) (hc : c < 4) (hl : l < 2 ^ 30) :
    RecordIOWriter.EncodeLRec c l < 2 ^ 32 := by
  rw [EncodeLRec_eq c l hc hl]; omega

/-- Decoding the flag of a well-formed packed header. -/
theorem DecodeFlag_EncodeLRec (c l : Nat) (hc : c < 4) (hl : l < 2 ^ 30) :
    RecordIOWriter.DecodeFlag (RecordIOWriter.EncodeLRec c l) = c := by
  rw [EncodeLRec_eq c l hc hl]
  unfold RecordIOWriter.DecodeFlag
  rw [Nat.mod_eq_of_lt (show 2 ^ 30 * c + l < 2 ^ 32 by omega),
    Nat.shiftRight_eq_div_pow,
    Nat.mul_add_div (by norm_num : 0 < 2 ^ 30),
    Nat.div_eq_of_lt hl,
    show (3 : Nat) = 2 ^ 2 - 1 by norm_num,
    Nat.and_pow_two_sub_one_eq_mod]
  omega

/-- Decoding the length of a well-formed packed header. -/
theorem DecodeLength_EncodeLRec (c l : Nat) (hc : c < 4) (hl : l < 2 ^ 30) :
    RecordIOWriter.DecodeLength (RecordIOWriter.EncodeLRec c l) = l := by
  rw [EncodeLRec_eq c l hc hl]
  unfold RecordIOWriter.DecodeLength
  rw [Nat.mod_eq_of_lt (show 2 ^ 30 * c + l < 2 ^ 32 by omega),
    show ((1 : Nat) <<< 30) - 1 = 2 ^ 30 - 1 by decide,
    Nat.and_pow_two_sub_one_eq_mod, Nat.mul_add_mod]
  omega

/-- Claim C2: for every cflag in `{0,1,2,3}` and every length below `2^30`,
decoding the packed header `EncodeLRec(cflag, length)` returns the cflag
and the length: the 32-bit header stores cflag in the top 2 bits and the
length in the bottom 30 bits. -/
theorem c2_header_pack_roundtrip (c l : Nat) (hc : c < 4) (hl : l < 2 ^ 30) :
    RecordIOWriter.DecodeFlag (RecordIOWriter.EncodeLRec c l) = c ∧
      RecordIOWriter.DecodeLength (RecordIOWriter.EncodeLRec c l) = l :=
  ⟨DecodeFlag_EncodeLRec c l hc hl, DecodeLength_EncodeLRec c l hc hl⟩

/-- Witness for C2 at cflag 2, length 5. -/
theorem c2_header_pack_roundtrip_witness :
    RecordIOWriter.DecodeFlag (RecordIOWriter.EncodeLRec 2 5) = 2 ∧
      RecordIOWriter.DecodeLength (RecordIOWriter.EncodeLRec 2 5) = 5 :=
  c2_header_pack_roundtrip 2 5 (by decide) (by decide)

/-- Claim C9: the decoders are total functions of the 32-bit header word,
and on every input the decoded flag is below 4 and the decoded length below
`2^30`, whether or not the word was produced by `EncodeLRec`. -/
theorem c9_decoder_range (rec : Nat) :
    RecordIOWriter.DecodeFlag rec < 4 ∧ RecordIOWriter.DecodeLength rec < 2 ^ 30 := by
  constructor
  · have h := Nat.and_le_right
      (n := (rec % 2 ^ 32) >>> 30) (m := 3)
    unfold RecordIOWriter.DecodeFlag
    omega
  · have h := Nat.and_le_right
      (n := rec % 2 ^ 32) (m := (1 <<< 30) - 1)
    have h2 : ((1 : Nat) <<< 30) - 1 < 2 ^ 30 := by decide
    unfold RecordIOWriter.DecodeLength
    omega

/-- Claim C8: for every 32-bit word `rec`, re-encoding its decoded flag and
length reproduces `rec`: the (cflag, length) pair determines the header
word uniquely. -/
theorem c8_decode_encode_roundtrip (rec : Nat) (h : rec < 2 ^ 32) :
    RecordIOWriter.EncodeLRec (RecordIOWriter.DecodeFlag rec)
      (RecordIOWriter.DecodeLength rec) = rec := by
  have hf : RecordIOWriter.DecodeFlag rec = rec / 2 ^ 30 := by
    unfold RecordIOWriter.DecodeFlag
    rw [Nat.mod_eq_of_lt h, Nat.shiftRight_eq_div_pow,
      show (3 : Nat) = 2 ^ 2 - 1 by norm_num,
      Nat.and_pow_two_sub_one_eq_mod]
    omega
  have hl : RecordIOWriter.DecodeLength rec = rec % 2 ^ 30 := by
    unfold RecordIOWriter.DecodeLength
    rw [Nat.mod_eq_of_lt h,
      show ((1 : Nat) <<< 30) - 1 = 2 ^ 30 - 1 by decide,
      Nat.and_pow_two_sub_one_eq_mod]
  rw [hf, hl, EncodeLRec_eq _ _ (by omega) (Nat.mod_lt rec (by norm_num))]
  exact Nat.div_add_mod rec (2 ^ 30)

/-- Witness for C8 at a word that is not a well-formed header image. -/
theorem c8_decode_encode_roundtrip_witness :
    RecordIOWriter.EncodeLRec (RecordIOWriter.DecodeFlag 0xdeadbeef)
      (RecordIOWriter.DecodeLength 0xdeadbeef) = 0xdeadbeef :=
  c8_decode_encode_roundtrip 0xdeadbeef (by decide)

/-- Claim C3: the magic marker is the fixed 4-byte constant `0x3ed7230a`,
and every chunk the writer emits, whatever its flag and payload, starts
with exactly those 4 bytes. -/
theorem c3_magic_constant :
    RecordIOWriter.kMagic = 0x3ed7230a ∧
      ∀ c seg, (chunkBytes c seg).take 4 = encodeLE32 RecordIOWriter.kMagic := by
  refine ⟨rfl, fun c seg => ?_⟩
  rw [chunkBytes, show (magicBytes : List Nat) = encodeLE32 RecordIOWriter.kMagic from rfl]
  simp [encodeLE32]

/-- A `consHead` result is never empty. -/
theorem consHead_ne_nil (x : Nat) (ss : List (List Nat)) : consHead x ss ≠ [] := by
  cases ss <;> simp [consHead]

/-- The split of a payload always has at least one segment. -/
theorem splitSegments_ne_nil (l : List Nat) : splitSegments l ≠ [] := by
  match l with
  | [] => simp [splitSegments]
  | [a] => simp [splitSegments]
  | [a, b] => simp [splitSegments]
  | [a, b, c] => simp [splitSegments]
  | a :: b :: c :: d :: rest =>
    rw [splitSegments]
    split
    · simp
    · exact consHead_ne_nil a _

/-- Unfolding `joinMagic` on a list with at least two segments. -/
theorem joinMagic_cons (s : List Nat) (ss : List (List Nat)) (h : ss ≠ []) :
    joinMagic (s :: ss) = s ++ magicBytes ++ joinMagic ss := by
  match ss with
  | t :: ts => rfl

/-- Splitting a payload around the magic occurrences and re-interleaving
the magic sequence reproduces the payload. -/
theorem joinMagic_splitSegments (l : List Nat) : joinMagic (splitSegments l) = l := by
  induction l using splitSegments.induct with
  | case1 a b c d rest h ih =>
    rw [splitSegments, if_pos h,
      joinMagic_cons [] (splitSegments rest) (splitSegments_ne_nil rest)]
    simp [← h, ih]
  | case2 a b c d rest h ih =>
    rw [splitSegments, if_neg h]
    rcases hsp : splitSegments (b :: c :: d :: rest) with _ | ⟨s, ss⟩
    · exact absurd hsp (splitSegments_ne_nil _)
    · rw [hsp] at ih
      rcases ss with _ | ⟨u, us⟩
      · simpa [consHead, joinMagic] using congrArg (a :: ·) ih
      · rw [consHead, joinMagic_cons (a :: s) (u :: us) (by simp),
          joinMagic_cons s (u :: us) (by simp)] at *
        simpa using congrArg (a :: ·) ih
  | case3 other h => simp [splitSegments, joinMagic]

/-- Every member of a segment list is no longer than the joined payload. -/
theorem length_le_joinMagic (seg : List Nat) (ss : List (List Nat)) (h : seg ∈ ss) :
    seg.length ≤ (joinMagic ss).length := by
  induction ss with
  | nil => cases h
  | cons s ss ih =>
    rcases ss with _ | ⟨u, us⟩
    · simp only [List.mem_singleton] at h
      subst h; simp [joinMagic]
    · rw [joinMagic_cons s (u :: us) (by simp)]
      rcases List.mem_cons.mp h with rfl | h2
      · simp
      · have := ih h2
        simp only [List.length_append]
        omega

/-- Every segment produced by splitting `b` is no longer than `b`. -/
theorem splitSegments_length_le (b seg : List Nat) (h : seg ∈ splitSegments b) :
    seg.length ≤ b.length := by
  have h2 := length_le_joinMagic seg _ h
  rwa [joinMagic_splitSegments] at h2

/-- Byte count of one chunk: magic, header, payload, pad. -/
theorem chunkBytes_length (c : Nat) (seg : List Nat) :
    (chunkBytes c seg).length = 8 + seg.length + padLen seg.length := by
  simp [chunkBytes, magicBytes, encodeLE32]
  omega

/-- Each chunk occupies a multiple of 4 bytes on the stream. -/
theorem chunkBytes_length_mod (c : Nat) (seg : List Nat) :
    (chunkBytes c seg).length % 4 = 0 := by
  rw [chunkBytes_length]
  unfold padLen
  omega

/-- Reading back a 32-bit word from its four little-endian bytes. -/
theorem decodeLE32_encodeLE32 (n : Nat) (h : n < 2 ^ 32) :
    decodeLE32 (n % 256) (n / 256 % 256) (n / 65536 % 256) (n / 16777216 % 256) = n := by
  unfold decodeLE32
  omega

/-- One iteration of the reader's loop on a stream beginning with a
well-formed chunk: the magic check passes, the header decodes to the
chunk's flag and payload length, the payload and pad are consumed, and the
loop either finishes the record (COMPLETE/END) or reinstates the escaped
magic bytes and continues (START/MIDDLE). -/
theorem readChunks_chunk (fuel : Nat) (first : Bool) (acc : List Nat) (c : Nat)
    (seg t : List Nat) (hc : c < 4) (hl : seg.length < 2 ^ 30) :
    readChunks (fuel + 1) first acc (chunkBytes c seg ++ t) =
      if c = 0 ∨ c = 3 then ReadResult.found (acc ++ seg) t
      else readChunks fuel false (acc ++ seg ++ magicBytes) t := by
  have hH : RecordIOWriter.EncodeLRec c seg.length < 2 ^ 32 := EncodeLRec_lt c seg.length hc hl
  have hshape : chunkBytes c seg ++ t =
      0x0a :: 0x23 :: 0xd7 :: 0x3e ::
      (RecordIOWriter.EncodeLRec c seg.length % 256) ::
      (RecordIOWriter.EncodeLRec c seg.length / 256 % 256) ::
      (RecordIOWriter.EncodeLRec c seg.length / 65536 % 256) ::
      (RecordIOWriter.EncodeLRec c seg.length / 16777216 % 256) ::
      (seg ++ (List.replicate (padLen seg.length) 0 ++ t)) := by
    simp [chunkBytes, magicBytes_eq, encodeLE32]
  rw [hshape]
  simp only [readChunks]
  rw [if_pos magicBytes_eq.symm]
  rw [decodeLE32_encodeLE32 _ hH, DecodeFlag_EncodeLRec c seg.length hc hl,
    DecodeLength_EncodeLRec c seg.length hc hl]
  have hcond : seg.length + padLen seg.length ≤
      (seg ++ (List.replicate (padLen seg.length) 0 ++ t)).length := by
    simp only [List.length_append, List.length_replicate]
    omega
  rw [if_pos hcond]
  have htake : (seg ++ (List.replicate (padLen seg.length) 0 ++ t)).take seg.length = seg :=
    List.take_left seg _
  have hdrop : (seg ++ (List.replicate (padLen seg.length) 0 ++ t)).drop
      (seg.length + padLen seg.length) = t := by
    rw [← List.append_assoc]
    exact List.drop_left' (by simp)
  rw [htake, hdrop]

/-- A segment list never outnumbers the bytes of its framed tail. -/
theorem le_writeTail_length (ss : List (List Nat)) : ss.length ≤ (writeTail ss).length := by
  induction ss with
  | nil => simp [writeTail]
  | cons s ss ih =>
    rcases ss with _ | ⟨u, us⟩
    · have h8 := chunkBytes_length 3 s
      simp only [writeTail, List.length_cons, List.length_nil]
      omega
    · have h8 := chunkBytes_length 2 s
      simp only [writeTail, List.length_append, List.length_cons] at *
      omega

/-- A segment list never outnumbers the bytes of its framed chunks. -/
theorem le_writeChunks_length (ss : List (List Nat)) : ss.length ≤ (writeChunks ss).length := by
  rcases ss with _ | ⟨s, ss⟩
  · simp [writeChunks]
  rcases ss with _ | ⟨u, us⟩
  · have h8 := chunkBytes_length 0 s
    simp only [writeChunks, List.length_cons, List.length_nil]
    omega
  · have h8 := chunkBytes_length 1 s
    have ht := le_writeTail_length (u :: us)
    simp only [writeChunks, List.length_append, List.length_cons] at *
    omega

/-- Reading the framed continuation chunks of a split record reassembles
the joined payload of the remaining segments. -/
theorem readChunks_writeTail (ss : List (List Nat)) :
    ∀ fuel acc t, (∀ seg ∈ ss, seg.length < 2 ^ 30) → ss ≠ [] → ss.length ≤ fuel →
      readChunks fuel false acc (writeTail ss ++ t) =
        ReadResult.found (acc ++ joinMagic ss) t := by
  induction ss with
  | nil => intro fuel acc t _ hne _; exact absurd rfl hne
  | cons s ss ih =>
    intro fuel acc t hshort _ hfuel
    cases fuel with
    | zero => simp only [List.length_cons] at hfuel; omega
    | succ f =>
      rcases ss with _ | ⟨u, us⟩
      · simp only [writeTail]
        rw [readChunks_chunk f false acc 3 s t (by norm_num) (hshort s (by simp))]
        rw [if_pos (Or.inr rfl)]
        simp [joinMagic]
      · simp only [writeTail]
        rw [List.append_assoc]
        rw [readChunks_chunk f false acc 2 s _ (by norm_num) (hshort s (by simp))]
        rw [if_neg (by norm_num)]
        rw [ih f (acc ++ s ++ magicBytes) t
          (fun seg hm => hshort seg (List.mem_cons_of_mem s hm)) (by simp)
          (by simp only [List.length_cons] at hfuel ⊢; omega)]
        rw [joinMagic_cons s (u :: us) (by simp)]
        simp

/-- Reading the full framing of a segment list reassembles the joined
payload, leaving the trailing stream untouched. -/
theorem readChunks_writeChunks (segs : List (List Nat)) (fuel : Nat) (t : List Nat)
    (hne : segs ≠ []) (hshort : ∀ seg ∈ segs, seg.length < 2 ^ 30)
    (hfuel : segs.length ≤ fuel) :
    readChunks fuel true [] (writeChunks segs ++ t) =
      ReadResult.found (joinMagic segs) t := by
  rcases segs with _ | ⟨s, ss⟩
  · exact absurd rfl hne
  cases fuel with
  | zero => simp only [List.length_cons] at hfuel; omega
  | succ f =>
    rcases ss with _ | ⟨u, us⟩
    · simp only [writeChunks]
      rw [readChunks_chunk f true [] 0 s t (by norm_num) (hshort s (by simp))]
      rw [if_pos (Or.inl rfl)]
      simp [joinMagic]
    · simp only [writeChunks]
      rw [List.append_assoc]
      rw [readChunks_chunk f true [] 1 s _ (by norm_num) (hshort s (by simp))]
      rw [if_neg (by norm_num)]
      rw [readChunks_writeTail (u :: us) f ([] ++ s ++ magicBytes) t
        (fun seg hm => hshort seg (List.mem_cons_of_mem s hm)) (by simp)
        (by simp only [List.length_cons] at hfuel ⊢; omega)]
      rw [joinMagic_cons s (u :: us) (by simp)]
      simp

/-- The framed tail of a split record occupies a multiple of 4 bytes. -/
theorem writeTail_length_mod (ss : List (List Nat)) : (writeTail ss).length % 4 = 0 := by
  induction ss with
  | nil => simp [writeTail]
  | cons s ss ih =>
    rcases ss with _ | ⟨u, us⟩
    · simpa [writeTail] using chunkBytes_length_mod 3 s
    · have h1 := chunkBytes_length_mod 2 s
      simp only [writeTail, List.length_append] at *
      omega

/-- The full framing of a segment list occupies a multiple of 4 bytes. -/
theorem writeChunks_length_mod (ss : List (List Nat)) : (writeChunks ss).length % 4 = 0 := by
  rcases ss with _ | ⟨s, ss⟩
  · simp [writeChunks]
  rcases ss with _ | ⟨u, us⟩
  · simpa [writeChunks] using chunkBytes_length_mod 0 s
  · have h1 := chunkBytes_length_mod 1 s
    have h2 := writeTail_length_mod (u :: us)
    simp only [writeChunks, List.length_append] at *
    omega

/-- The reader's loop reports clean end of stream only on an empty stream
before any chunk of the call has been consumed. -/
theorem readChunks_eq_endOfStream : ∀ fuel (first : Bool) acc s,
    readChunks fuel first acc s = ReadResult.endOfStream → first = true ∧ s = [] := by
  intro fuel
  induction fuel with
  | zero =>
    intro first acc s h
    simp [readChunks] at h
  | succ f ih =>
    intro first acc s h
    rcases s with _ | ⟨m0, _ | ⟨m1, _ | ⟨m2, _ | ⟨m3, _ | ⟨h0, _ | ⟨h1, _ | ⟨h2, _ | ⟨h3, rest⟩⟩⟩⟩⟩⟩⟩⟩
    · cases first with
      | true => exact ⟨rfl, rfl⟩
      | false => simp [readChunks] at h
    · simp [readChunks] at h
    · simp [readChunks] at h
    · simp [readChunks] at h
    · simp [readChunks] at h
    · simp [readChunks] at h
    · simp [readChunks] at h
    · simp [readChunks] at h
    · simp only [readChunks] at h
      split at h
      · split at h
        · split at h
          · cases h
          · have hcontr := (ih _ _ _ h).1
            simp at hcontr
        · cases h
      · cases h

/-- Claim C1: for every byte buffer `b` of length below `2^30`, writing `b`
with `WriteRecord` and reading the resulting stream with `ReadRecord`
returns exactly `b` (with the stream fully consumed), including when `b`
contains the magic sequence anywhere, any number of times. -/
theorem c1_roundtrip (b : List Nat) (h : b.length < 2 ^ 30) :
    ∃ s, WriteRecord b = some s ∧ ReadRecord s = ReadResult.found b [] := by
  refine ⟨writeChunks (splitSegments b), by unfold WriteRecord; rw [if_pos h], ?_⟩
  unfold ReadRecord
  have hshort : ∀ seg ∈ splitSegments b, seg.length < 2 ^ 30 := fun seg hm =>
    lt_of_le_of_lt (splitSegments_length_le b seg hm) h
  have hfuel : (splitSegments b).length ≤ (writeChunks (splitSegments b)).length + 1 :=
    le_trans (le_writeChunks_length _) (Nat.le_succ _)
  have h2 := readChunks_writeChunks (splitSegments b)
    ((writeChunks (splitSegments b)).length + 1) [] (splitSegments_ne_nil b) hshort hfuel
  rw [joinMagic_splitSegments] at h2
  simpa using h2

/-- Witness for C1 on a buffer that is two adjacent copies of the magic
sequence: the magic occurs at offset 0, at the end, and twice. -/
theorem c1_roundtrip_witness :
    ([10, 35, 215, 62, 10, 35, 215, 62] : List Nat).length < 2 ^ 30 ∧
      ∃ s, WriteRecord [10, 35, 215, 62, 10, 35, 215, 62] = some s ∧
        ReadRecord s = ReadResult.found [10, 35, 215, 62, 10, 35, 215, 62] [] :=
  ⟨by decide, c1_roundtrip [10, 35, 215, 62, 10, 35, 215, 62] (by decide)⟩

/-- Claim C4: a payload of length at least `2^30` is rejected by
`WriteRecord` at call time rather than truncated, and on any accepted
payload every segment handed to `EncodeLRec` has length below `2^30`, so
no length ever spills into the cflag bits. -/
theorem c4_length_precondition (b : List Nat) :
    (2 ^ 30 ≤ b.length → WriteRecord b = none) ∧
      (b.length < 2 ^ 30 → allSegsShort b = true) := by
  constructor
  · intro h
    rw [WriteRecord, if_neg (by omega)]
  · intro h
    simp only [allSegsShort, List.all_eq_true, decide_eq_true_eq]
    exact fun seg hm => lt_of_le_of_lt (splitSegments_length_le b seg hm) h

/-- Witness for C4: an overlong payload is rejected, and on a short
payload every segment length fits the 30-bit field. -/
theorem c4_length_precondition_witness :
    WriteRecord (List.replicate (2 ^ 30) 0) = none ∧ allSegsShort [1, 2, 3] = true :=
  ⟨(c4_length_precondition _).1 (by simp only [List.length_replicate]; omega),
    (c4_length_precondition [1, 2, 3]).2 (by decide)⟩

/-- Claim C5: every stream `WriteRecord` produces has a byte count that is
a multiple of 4; each chunk (magic, header, payload, pad) is 4-aligned. -/
theorem c5_alignment (b s : List Nat) (h : WriteRecord b = some s) : s.length % 4 = 0 := by
  unfold WriteRecord at h
  split at h
  · cases h
    exact writeChunks_length_mod _
  · cases h

/-- Witness for C5 on the three-byte payload `[1, 2, 3]` (one pad byte). -/
theorem c5_alignment_witness :
    WriteRecord [1, 2, 3] = some [10, 35, 215, 62, 3, 0, 0, 0, 1, 2, 3, 0] ∧
      ([10, 35, 215, 62, 3, 0, 0, 0, 1, 2, 3, 0] : List Nat).length % 4 = 0 :=
  ⟨by decide, c5_alignment [1, 2, 3] _ (by decide)⟩

/-- Claim C6: `ReadRecord` reports clean end of stream exactly when the
stream is exhausted before any byte of a chunk is consumed for the call;
a mid-record end of stream, a truncated magic or header, a magic mismatch,
and a truncated payload are all surfaced as the distinct hard failure
`corrupt`, never as end of stream. -/
theorem c6_eof_discrimination :
    (∀ s, ReadRecord s = ReadResult.endOfStream ↔ s = []) ∧
      ReadRecord (chunkBytes 1 []) = ReadResult.corrupt ∧
      ReadRecord [10, 35, 215, 62] = ReadResult.corrupt ∧
      ReadRecord [1, 2, 3, 4, 5, 6, 7, 8] = ReadResult.corrupt ∧
      ReadRecord [10, 35, 215, 62, 5, 0, 0, 0, 1, 2] = ReadResult.corrupt := by
  refine ⟨fun s => ⟨fun h => (readChunks_eq_endOfStream _ _ _ _ h).2,
    fun h => by subst h; decide⟩, by decide, by decide, by decide, by decide⟩

/-- Claim C7: on a platform whose `unsigned` is not 4 bytes wide, both the
writer and the reader constructor fail their width `CHECK`, so header
packing never proceeds with a wrong-width integer. -/
theorem c7_width_check (w : Nat) (h : w ≠ 4) :
    RecordIOWriter.create w = none ∧ RecordIOReader.create w = none := by
  constructor <;> simp [RecordIOWriter.create, RecordIOReader.create, h]

/-- Witness for C7 on a platform with 8-byte `unsigned`. -/
theorem c7_width_check_witness :
    RecordIOWriter.create 8 = none ∧ RecordIOReader.create 8 = none :=
  c7_width_check 8 (by decide)

/-- Claim C10: a freshly constructed writer has exception counter 0, and
the `except_counter` accessor returns that value without modifying the
writer's state. -/
theorem c10_except_counter_init (w : RecordIOWriter) (h : RecordIOWriter.create 4 = some w) :
    RecordIOWriter.except_counter w = (0, w) := by
  unfold RecordIOWriter.create at h
  rw [if_pos rfl] at h
  cases h
  rfl

/-- Witness for C10 on the writer the constructor actually produces. -/
theorem c10_except_counter_init_witness :
    RecordIOWriter.except_counter ⟨0⟩ = (0, (⟨0⟩ : RecordIOWriter)) :=
  c10_except_counter_init ⟨0⟩ (by decide)

end dmlc
